import Mathlib

/-!
Shallow embedding of the fill-in estimation engine of this repository:
the elimination-tree fill counter (`count_nnz_fillin` on a CSR matrix),
the factorization-oracle path (`count_nnz_fillin_oracle`), the plain-text
export (`exportToPlainText`) and the permutation validator
(`is_unique_permutation`), together with a symbolic model of the external
Cholesky collaborator (elimination fill closure).
-/

/-- A sparse matrix pattern in compressed-sparse-row form, as consumed by the
elimination-tree overload of `count_nnz_fillin` (row pointers and column
indices; values are irrelevant to the pattern-only algorithm). -/
structure CSRMatrix where
  n : Nat
  row_ptr : List Nat
  col_idx : List Nat

/-- Column indices stored in row `r`: `col_idx[i]` for
`i ∈ [row_ptr[r], row_ptr[r+1])`, exactly as the inner loop of the
elimination-tree overload reads them. -/
def rowCols (m : CSRMatrix) (r : Nat) : List Nat :=
  (List.range' (m.row_ptr.getD r 0)
      (m.row_ptr.getD (r + 1) 0 - m.row_ptr.getD r 0)).map
    (fun i => m.col_idx.getD i 0)

/-- Working state of the elimination-tree sweep: the `parent`, `tags` and
`nonZerosPerCol` scratch vectors (as total maps) and the running `nnz`
counter. -/
structure ETState where
  parent : Nat → Int
  tags : Nat → Nat
  nonZerosPerCol : Nat → Nat
  nnz : Nat

/-- Initial scratch state: `std::vector<int>` value-initializes to zero. -/
def initET : ETState :=
  { parent := fun _ => 0
    tags := fun _ => 0
    nonZerosPerCol := fun _ => 0
    nnz := 0 }

/-- The value of `parent[c]` after the body of the inner walk ran at node `c`
(the body first sets `parent[c] = r` when it was `-1`); the loop increment
`c = parent[c]` reads exactly this value. -/
def etNext (r c : Nat) (s : ETState) : Int :=
  if s.parent c = -1 then (r : Int) else s.parent c

/-- The loop body of the inner walk at node `c`:
`if (parent[c] == -1) parent[c] = r; nonZerosPerCol[c]++; nnz++; tags[c] = r;`. -/
def etBody (r c : Nat) (s : ETState) : ETState :=
  { parent := fun v => if v = c then etNext r c s else s.parent v
    tags := fun v => if v = c then r else s.tags v
    nonZerosPerCol := fun v =>
      if v = c then s.nonZerosPerCol v + 1 else s.nonZerosPerCol v
    nnz := s.nnz + 1 }

/-- The inner ancestor walk
`for (; tags[c] != r; c = parent[c]) { if (parent[c] == -1) parent[c] = r;
nonZerosPerCol[c]++; nnz++; tags[c] = r; }` of the elimination-tree overload,
with explicit fuel (the C++ loop is unbounded; the development proves the
chosen fuel is never exhausted). -/
def etWalk (r : Nat) : Nat → Nat → ETState → Option ETState
  | 0, _, _ => none
  | fuel + 1, c, s =>
    if s.tags c = r then some s
    else etWalk r fuel (etNext r c s).toNat (etBody r c s)

/-- Per-row initialization `parent[r] = -1; tags[r] = r; nonZerosPerCol[r] = 0`. -/
def etInitRow (r : Nat) (s : ETState) : ETState :=
  { parent := fun v => if v = r then -1 else s.parent v
    tags := fun v => if v = r then r else s.tags v
    nonZerosPerCol := fun v => if v = r then 0 else s.nonZerosPerCol v
    nnz := s.nnz }

/-- Handling of one stored column `c` of row `r`: the walk runs only when
`c < r`; the fuel `n + 1` is proved sufficient below. -/
def etCol (n r : Nat) (st : ETState) (c : Nat) : Option ETState :=
  if c < r then etWalk r (n + 1) c st else some st

/-- One iteration of the outer row loop: initialize row `r`'s slots, then for
every stored column `c` of row `r` with `c < r`, run the ancestor walk. -/
def etProcessRow (m : CSRMatrix) (r : Nat) (s : ETState) : Option ETState :=
  (rowCols m r).foldlM (etCol m.n r) (etInitRow r s)

/-- The first `k` iterations of the outer row loop, starting from the
zero-initialized scratch state. -/
def etRun (m : CSRMatrix) (k : Nat) : Option ETState :=
  (List.range k).foldlM (fun s r => etProcessRow m r s) initET

/-- The elimination-tree overload `count_nnz_fillin(const rxmesh::SparseMatrix<T>&)`:
run the sweep over all rows and return `2 * nnz + rows()`. -/
def count_nnz_fillin (m : CSRMatrix) : Option Int :=
  (etRun m m.n).map (fun s => 2 * (s.nnz : Int) + (m.n : Int))

/-- `rxmesh::is_unique_permutation`: copy the first `size` entries into a
private vector, sort it ascending, and check every entry equals its index. -/
def is_unique_permutation (size : Nat) (h_permute : List Nat) : Bool :=
  let permute := List.insertionSort (fun a b => a ≤ b) (h_permute.take size)
  (List.range permute.length).all (fun i => permute.getD i 0 == i)

/-- State-passing form of `is_unique_permutation`, returning the caller's
array as it stands after the call: the function only reads `h_permute`
(via the copy into the private vector), so the array component is returned
as received. -/
def is_unique_permutation_run (size : Nat) (h_permute : List Nat) :
    Bool × List Nat :=
  let permute := List.insertionSort (fun a b => a ≤ b) (h_permute.take size)
  ((List.range permute.length).all (fun i => permute.getD i 0 == i), h_permute)

/-- `exportToPlainText`: the file system is modelled by the single flag
`canOpen`. On success the written content is the list of 1-indexed triplets
in traversal order; on failure nothing is written and one diagnostic is
emitted. The first component is the written file (`none` when the path
could not be opened), the second the emitted diagnostics. -/
def exportToPlainText (entries : List (Nat × Nat × Int)) (canOpen : Bool) :
    Option (List (Nat × Nat × Int)) × List String :=
  if canOpen then
    (some (entries.map (fun e => (e.1 + 1, e.2.1 + 1, e.2.2))), [])
  else
    (none, ["Error opening file"])

/-- Modelled from the spec: `Eigen::internal::permute_symm_to_fullsymm` is an
external collaborator (its source is not part of this repository); spec §4.2
step 2 describes it: every stored entry `(r,c,v)` with `c ≤ r` under the old
labeling is placed at both `(P[r],P[c])` and `(P[c],P[r])` under the new
labeling, values preserved, self-entries placed once. -/
def permute_symm_to_fullsymm (entries : List (Nat × Nat × Int))
    (h_permute : List Nat) : List (Nat × Nat × Int) :=
  entries.flatMap (fun e =>
    if h_permute.getD e.1 0 = h_permute.getD e.2.1 0 then
      [(h_permute.getD e.1 0, h_permute.getD e.2.1 0, e.2.2)]
    else
      [(h_permute.getD e.1 0, h_permute.getD e.2.1 0, e.2.2),
        (h_permute.getD e.2.1 0, h_permute.getD e.1 0, e.2.2)])

/-- Result of the oracle overload: the returned fill count, the emitted
diagnostics, the exported file content, and the caller's permutation array
as it stands after the call. -/
structure OracleResult where
  fillCount : Int
  log : List String
  written : Option (List (Nat × Nat × Int))
  hPermuteAfter : List Nat

/-- The oracle overload `count_nnz_fillin(eigen_mat, h_permute, st)`:
permute the lower-stored matrix into full symmetric form, export it
(best-effort), hand the permuted matrix to the Cholesky collaborator
`chol` (a black box returning the factor's stored nonzero count, or `none`
on failure), and either report `-1` with a diagnostic or return
`2 * (nnz(L) - n) + n`. -/
def count_nnz_fillin_oracle (n : Nat) (entries : List (Nat × Nat × Int))
    (h_permute : List Nat) (canOpen : Bool)
    (chol : List (Nat × Nat × Int) → Option Nat) : OracleResult :=
  let permuted := permute_symm_to_fullsymm entries h_permute
  let ex := exportToPlainText permuted canOpen
  match chol permuted with
  | none =>
      { fillCount := -1
        log := ex.2 ++ ["Cholesky decomposition with reorder failed"]
        written := ex.1
        hPermuteAfter := h_permute }
  | some lnnz =>
      { fillCount := 2 * ((lnnz : Int) - (n : Int)) + (n : Int)
        log := ex.2
        written := ex.1
        hPermuteAfter := h_permute }

/-- Sparsity pattern of a triplet list. -/
def patternOf (entries : List (Nat × Nat × Int)) : Finset (Nat × Nat) :=
  (entries.map (fun e => (e.1, e.2.1))).toFinset

/-- Sparsity pattern of a CSR matrix, restricted to in-range positions. -/
def patternOfCSR (m : CSRMatrix) : Finset (Nat × Nat) :=
  (Finset.range m.n ×ˢ Finset.range m.n).filter
    (fun p => p.2 ∈ rowCols m p.1)

/-- One step of symbolic Gaussian elimination on a symmetric pattern:
eliminating index `k` connects every pair of neighbours of `k` above `k`. -/
def fillStep (n : Nat) (F : Finset (Nat × Nat)) (k : Nat) :
    Finset (Nat × Nat) :=
  F ∪ (Finset.range n ×ˢ Finset.range n).filter
    (fun p => k < p.1 ∧ k < p.2 ∧ (p.1, k) ∈ F ∧ (p.2, k) ∈ F)

/-- The first `k` elimination steps. -/
def fillStage (n : Nat) (Q : Finset (Nat × Nat)) (k : Nat) :
    Finset (Nat × Nat) :=
  (List.range k).foldl (fillStep n) Q

/-- The symbolic Cholesky fill closure of a pattern of order `n`. -/
def fillClosure (n : Nat) (Q : Finset (Nat × Nat)) : Finset (Nat × Nat) :=
  fillStage n Q n

/-- Modelled from the spec: the numeric factorization collaborator (§6) is a
black box outside this repository that, on success, returns a
lower-triangular factor with an accessible stored-nonzero count. Its factor's
pattern is modelled symbolically: the diagonal (always stored, `n` entries)
plus the strictly-lower entries of the elimination fill closure of the
input pattern. -/
def modelCholesky (n : Nat) (entries : List (Nat × Nat × Int)) : Option Nat :=
  some (n +
    ((fillClosure n (patternOf entries)).filter (fun p => p.2 < p.1)).card)

/-- The row-`r` first occurrence of a column in the fill pattern: smallest
`q` with `c < q < n` and `(q, c)` in `F`, and `n` when no such row exists.
This is the elimination-tree parent of `c` determined by `F`. -/
def fillParent (n : Nat) (F : Finset (Nat × Nat)) (c : Nat) : Nat :=
  if h : (((Finset.range n).filter (fun q => c < q ∧ (q, c) ∈ F))).Nonempty
  then ((Finset.range n).filter (fun q => c < q ∧ (q, c) ∈ F)).min' h
  else n

/-- Nodes of `[0, r)` tagged with the current row `r`. -/
def Tset (r : Nat) (s : ETState) : Finset Nat :=
  (Finset.range r).filter (fun v => s.tags v = r)

/-- Columns `c < r` carrying a fill entry `(r, c)`. -/
def Dset (r : Nat) (F : Finset (Nat × Nat)) : Finset Nat :=
  (Finset.range r).filter (fun c => (r, c) ∈ F)

/-- Mid-row invariant of the elimination-tree sweep while processing row `r`
against the fill closure `F`; `pend` is the node the inner walk is about to
visit (`none` between walks). -/
structure MidInv (n : Nat) (F : Finset (Nat × Nat)) (r : Nat)
    (pend : Option Nat) (s : ETState) : Prop where
  tagr : s.tags r = r
  tset_sub : ∀ v ∈ Tset r s, (r, v) ∈ F
  parent_tag : ∀ v ∈ Tset r s, s.parent v = (fillParent n F v : Int)
  parent_untag : ∀ v, v < r → v ∉ Tset r s →
    (fillParent n F v < r → s.parent v = (fillParent n F v : Int)) ∧
    (r ≤ fillParent n F v → s.parent v = -1)
  chain : ∀ v ∈ Tset r s, fillParent n F v = r ∨
    fillParent n F v ∈ Tset r s ∨ pend = some (fillParent n F v)

/-- Invariant of the outer row loop after `k` rows, against the fill closure
of the matrix pattern. -/
structure RunInv (m : CSRMatrix) (k : Nat) (s : ETState) : Prop where
  pinv : ∀ c, c < k →
    (fillParent m.n (fillClosure m.n (patternOfCSR m)) c < k →
      s.parent c = (fillParent m.n (fillClosure m.n (patternOfCSR m)) c : Int)) ∧
    (k ≤ fillParent m.n (fillClosure m.n (patternOfCSR m)) c →
      s.parent c = -1)
  tbound : ∀ v, s.tags v = 0 ∨ s.tags v < k
  nnzv : s.nnz = ((fillClosure m.n (patternOfCSR m)).filter
    (fun p => p.2 < p.1 ∧ p.1 < k)).card

/-- A concrete 4-by-4 path-graph pattern in full symmetric CSR form
(spec §8's concrete scenario), used as a witness input. -/
def pathCSR : CSRMatrix :=
  { n := 4
    row_ptr := [0, 2, 5, 8, 10]
    col_idx := [0, 1, 0, 1, 2, 1, 2, 3, 2, 3] }

/-- A concrete fully dense lower-triangular pattern of order 3, used as a
witness input. -/
def denseCSR3 : CSRMatrix :=
  { n := 3
    row_ptr := [0, 1, 3, 6]
    col_idx := [0, 0, 1, 0, 1, 2] }

/-- A concrete fully dense symmetric 2-by-2 pattern in full CSR form, used
as a witness input. -/
def fullCSR2 : CSRMatrix :=
  { n := 2
    row_ptr := [0, 2, 4]
    col_idx := [0, 1, 0, 1] }

/-- A concrete 2-by-2 lower-triangle-stored matrix, used as a witness input
for the oracle path. -/
def lowerE2 : List (Nat × Nat × Int) :=
  [(0, 0, 2), (1, 0, 1), (1, 1, 2)]

/-! ### Sorting characterization of the permutation validator -/

theorem is_unique_permutation_iff (n : Nat) (P : List Nat) (h : P.length = n) :
    (is_unique_permutation n P = true ↔
      List.insertionSort (fun a b => a ≤ b) P = List.range n) := by
  subst h
  unfold is_unique_permutation
  rw [List.take_length]
  have hlen : (List.insertionSort (fun a b => a ≤ b) P).length = P.length :=
    List.length_insertionSort _ _
  constructor
  · intro hall
    rw [List.all_eq_true] at hall
    apply List.ext_getElem (by simp [hlen])
    intro i h1 h2
    have hi : i ∈ List.range (List.insertionSort (fun a b => a ≤ b) P).length := by
      simp only [List.mem_range]; omega
    have := hall i hi
    rw [beq_iff_eq] at this
    rw [List.getD_eq_getElem _ _ h1] at this
    simpa [List.getElem_range] using this
  · intro he
    rw [List.all_eq_true]
    intro i hi
    rw [List.mem_range] at hi
    rw [beq_iff_eq, List.getD_eq_getElem _ _ (by omega)]
    simp [he, List.getElem_range]

/-- C2: for every array `P` of length `n` (`n` the size argument),
`is_unique_permutation n P` returns `true` iff sorting a copy of `P` yields
exactly `[0, 1, ..., n-1]`; in particular it returns `false` for any array
containing a duplicate or an out-of-range value. -/
theorem c2_permutation_validator (n : Nat) (P : List Nat) (h : P.length = n) :
    (is_unique_permutation n P = true ↔
      List.insertionSort (fun a b => a ≤ b) P = List.range n) ∧
    (¬ P.Nodup → is_unique_permutation n P = false) ∧
    ((∃ v ∈ P, n ≤ v) → is_unique_permutation n P = false) := by
  refine ⟨is_unique_permutation_iff n P h, ?_, ?_⟩
  · intro hnd
    by_contra hne
    rw [Bool.not_eq_false, is_unique_permutation_iff n P h] at hne
    have hperm := List.perm_insertionSort (fun a b => a ≤ b) P
    rw [hne] at hperm
    exact hnd (hperm.nodup (List.nodup_range n))
  · rintro ⟨v, hv, hnv⟩
    by_contra hne
    rw [Bool.not_eq_false, is_unique_permutation_iff n P h] at hne
    have hperm := List.perm_insertionSort (fun a b => a ≤ b) P
    rw [hne] at hperm
    have hvr : v ∈ List.range n := hperm.mem_iff.2 hv
    rw [List.mem_range] at hvr
    omega

/-- Witness for C2 at the concrete input `n = 2`, `P = [1, 0]`. -/
theorem c2_permutation_validator_witness :
    (([1, 0] : List Nat).length = 2) ∧
    ((is_unique_permutation 2 [1, 0] = true ↔
      List.insertionSort (fun a b => a ≤ b) [1, 0] = List.range 2) ∧
    (¬ ([1, 0] : List Nat).Nodup → is_unique_permutation 2 [1, 0] = false) ∧
    ((∃ v ∈ ([1, 0] : List Nat), 2 ≤ v) →
      is_unique_permutation 2 [1, 0] = false)) :=
  ⟨rfl, c2_permutation_validator 2 [1, 0] rfl⟩

/-- C3: when the Cholesky collaborator succeeds with factor nonzero count
`L` on the permuted matrix, the oracle overload returns exactly
`2 * (nnz(L) - n) + n`. -/
theorem c3_oracle_success_formula (n : Nat) (E : List (Nat × Nat × Int))
    (P : List Nat) (canOpen : Bool)
    (chol : List (Nat × Nat × Int) → Option Nat) (L : Nat)
    (h : chol (permute_symm_to_fullsymm E P) = some L) :
    (count_nnz_fillin_oracle n E P canOpen chol).fillCount =
      2 * ((L : Int) - (n : Int)) + (n : Int) := by
  simp only [count_nnz_fillin_oracle, h]

/-- Witness for C3 at a concrete stub collaborator returning `some 5`. -/
theorem c3_oracle_success_formula_witness :
    ((fun _ => some 5) : List (Nat × Nat × Int) → Option Nat)
        (permute_symm_to_fullsymm [] []) = some 5 ∧
    (count_nnz_fillin_oracle 2 [] [] true (fun _ => some 5)).fillCount =
      2 * ((5 : Int) - (2 : Int)) + (2 : Int) :=
  ⟨rfl, c3_oracle_success_formula 2 [] [] true (fun _ => some 5) 5 rfl⟩

/-- C4: when the Cholesky collaborator reports failure, the oracle overload
returns the sentinel `-1` and emits exactly one additional diagnostic for
the failure; no retry happens (the result is a pure function of the one
collaborator call). -/
theorem c4_oracle_failure (n : Nat) (E : List (Nat × Nat × Int)) (P : List Nat)
    (canOpen : Bool) (chol : List (Nat × Nat × Int) → Option Nat)
    (h : chol (permute_symm_to_fullsymm E P) = none) :
    (count_nnz_fillin_oracle n E P canOpen chol).fillCount = -1 ∧
    (count_nnz_fillin_oracle n E P canOpen chol).log =
      (exportToPlainText (permute_symm_to_fullsymm E P) canOpen).2 ++
        ["Cholesky decomposition with reorder failed"] := by
  constructor <;> simp only [count_nnz_fillin_oracle, h]

/-- Witness for C4 at a concrete stub collaborator returning `none`. -/
theorem c4_oracle_failure_witness :
    ((fun _ => none) : List (Nat × Nat × Int) → Option Nat)
        (permute_symm_to_fullsymm [] []) = none ∧
    ((count_nnz_fillin_oracle 3 [] [] true (fun _ => none)).fillCount = -1 ∧
    (count_nnz_fillin_oracle 3 [] [] true (fun _ => none)).log =
      (exportToPlainText (permute_symm_to_fullsymm [] []) true).2 ++
        ["Cholesky decomposition with reorder failed"]) :=
  ⟨rfl, c4_oracle_failure 3 [] [] true (fun _ => none) rfl⟩

/-- C8: when the export path cannot be opened, `exportToPlainText` writes
nothing and emits a diagnostic, and the oracle overload's returned fill
count is identical to the one returned had the export succeeded. -/
theorem c8_export_failure_harmless (n : Nat) (E : List (Nat × Nat × Int))
    (P : List Nat) (chol : List (Nat × Nat × Int) → Option Nat) :
    (exportToPlainText (permute_symm_to_fullsymm E P) false).1 = none ∧
    (exportToPlainText (permute_symm_to_fullsymm E P) false).2 =
      ["Error opening file"] ∧
    (count_nnz_fillin_oracle n E P false chol).fillCount =
      (count_nnz_fillin_oracle n E P true chol).fillCount := by
  refine ⟨rfl, rfl, ?_⟩
  cases hc : chol (permute_symm_to_fullsymm E P) <;>
    simp only [count_nnz_fillin_oracle, hc]

/-- C9: neither `is_unique_permutation` nor the oracle overload mutates the
caller's permutation array: the array after either call equals the array
before it. -/
theorem c9_no_mutation (size : Nat) (P : List Nat) (n : Nat)
    (E : List (Nat × Nat × Int)) (canOpen : Bool)
    (chol : List (Nat × Nat × Int) → Option Nat) :
    (is_unique_permutation_run size P).2 = P ∧
    (count_nnz_fillin_oracle n E P canOpen chol).hPermuteAfter = P := by
  refine ⟨rfl, ?_⟩
  cases hc : chol (permute_symm_to_fullsymm E P) <;>
    simp only [count_nnz_fillin_oracle, hc]

/-! ### Properties of the elimination fill closure -/

theorem subset_fillStep (n : Nat) (F : Finset (Nat × Nat)) (k : Nat) :
    F ⊆ fillStep n F k :=
  Finset.subset_union_left

theorem fillStage_succ (n : Nat) (Q : Finset (Nat × Nat)) (k : Nat) :
    fillStage n Q (k + 1) = fillStep n (fillStage n Q k) k := by
  unfold fillStage
  rw [List.range_succ, List.foldl_append, List.foldl_cons, List.foldl_nil]

theorem subset_fillStage (n : Nat) (Q : Finset (Nat × Nat)) :
    ∀ k, Q ⊆ fillStage n Q k := by
  intro k
  induction k with
  | zero => exact fun p hp => hp
  | succ k ih =>
      rw [fillStage_succ]
      exact ih.trans (subset_fillStep n _ k)

theorem fillStage_mono (n : Nat) (Q : Finset (Nat × Nat)) {j k : Nat}
    (h : j ≤ k) : fillStage n Q j ⊆ fillStage n Q k := by
  induction k with
  | zero =>
      have : j = 0 := Nat.le_zero.1 h
      subst this; exact fun p hp => hp
  | succ k ih =>
      rcases Nat.lt_or_ge j (k + 1) with hlt | hge
      · rw [fillStage_succ]
        exact (ih (Nat.lt_succ_iff.1 hlt)).trans (subset_fillStep n _ k)
      · have : j = k + 1 := Nat.le_antisymm h hge
        subst this; exact fun p hp => hp

theorem fillStage_subset_range (n : Nat) (Q : Finset (Nat × Nat))
    (hQ : Q ⊆ Finset.range n ×ˢ Finset.range n) :
    ∀ k, fillStage n Q k ⊆ Finset.range n ×ˢ Finset.range n := by
  intro k
  induction k with
  | zero => exact hQ
  | succ k ih =>
      rw [fillStage_succ]
      exact Finset.union_subset ih (Finset.filter_subset _ _)

theorem mem_fillStage_down (n : Nat) (Q : Finset (Nat × Nat)) {a b k : Nat}
    (h : (a, b) ∈ fillStage n Q (k + 1)) (hmin : a ≤ k ∨ b ≤ k) :
    (a, b) ∈ fillStage n Q k := by
  rw [fillStage_succ] at h
  rcases Finset.mem_union.1 h with h1 | h1
  · exact h1
  · rw [Finset.mem_filter] at h1
    rcases h1 with ⟨-, hka, hkb, -, -⟩
    omega

theorem mem_fillStage_of_le (n : Nat) (Q : Finset (Nat × Nat)) {a b j k : Nat}
    (hcl : (a, b) ∈ fillStage n Q k) (hj : j ≤ k) (hab : a ≤ j ∨ b ≤ j) :
    (a, b) ∈ fillStage n Q j := by
  induction k with
  | zero =>
      have : j = 0 := Nat.le_zero.1 hj
      subst this; exact hcl
  | succ k ih =>
      rcases Nat.lt_or_ge j (k + 1) with hlt | hge
      · have hjk : j ≤ k := Nat.lt_succ_iff.1 hlt
        apply ih _ hjk
        apply mem_fillStage_down n Q hcl
        omega
      · have : j = k + 1 := Nat.le_antisymm hj hge
        subst this; exact hcl

theorem fill_elim (n : Nat) (Q : Finset (Nat × Nat))
    (hQ : Q ⊆ Finset.range n ×ˢ Finset.range n) {r p c : Nat}
    (hrc : (r, c) ∈ fillClosure n Q) (hpc : (p, c) ∈ fillClosure n Q)
    (hcp : c < p) (hcr : c < r) : (r, p) ∈ fillClosure n Q := by
  have hrn : r < n := by
    have := fillStage_subset_range n Q hQ n hrc
    rw [Finset.mem_product, Finset.mem_range, Finset.mem_range] at this
    exact this.1
  have hpn : p < n := by
    have := fillStage_subset_range n Q hQ n hpc
    rw [Finset.mem_product, Finset.mem_range, Finset.mem_range] at this
    exact this.1
  have hcn : c < n := lt_trans hcp hpn
  have h1 : (r, c) ∈ fillStage n Q c :=
    mem_fillStage_of_le n Q hrc (le_of_lt hcn) (Or.inr le_rfl)
  have h2 : (p, c) ∈ fillStage n Q c :=
    mem_fillStage_of_le n Q hpc (le_of_lt hcn) (Or.inr le_rfl)
  have hstep : (r, p) ∈ fillStage n Q (c + 1) := by
    rw [fillStage_succ]
    apply Finset.mem_union_right
    rw [Finset.mem_filter, Finset.mem_product, Finset.mem_range, Finset.mem_range]
    exact ⟨⟨hrn, hpn⟩, hcr, hcp, h1, h2⟩
  exact fillStage_mono n Q hcn hstep

theorem fill_origin (n : Nat) (Q : Finset (Nat × Nat)) {a b : Nat} :
    ∀ j, j ≤ n → (a, b) ∈ fillStage n Q j →
      (a, b) ∈ Q ∨ ∃ k, k < a ∧ k < b ∧
        (a, k) ∈ fillClosure n Q ∧ (b, k) ∈ fillClosure n Q := by
  intro j
  induction j with
  | zero => intro _ h; exact Or.inl h
  | succ j ih =>
      intro hj h
      rw [fillStage_succ] at h
      rcases Finset.mem_union.1 h with h1 | h1
      · exact ih (by omega) h1
      · rw [Finset.mem_filter] at h1
        rcases h1 with ⟨-, hja, hjb, haj, hbj⟩
        refine Or.inr ⟨j, hja, hjb, ?_, ?_⟩
        · exact fillStage_mono n Q (by omega) haj
        · exact fillStage_mono n Q (by omega) hbj

/-! ### Properties of the fill parent -/

theorem fillParent_gt (n : Nat) (F : Finset (Nat × Nat)) {c : Nat}
    (hc : c < n) : c < fillParent n F c := by
  unfold fillParent
  split
  · next h =>
      have hm := Finset.min'_mem _ h
      rw [Finset.mem_filter] at hm
      exact hm.2.1
  · exact hc

theorem fillParent_le (n : Nat) (F : Finset (Nat × Nat)) {c q : Nat}
    (hq : q < n) (hcq : c < q) (hmem : (q, c) ∈ F) :
    fillParent n F c ≤ q := by
  have hqf : q ∈ (Finset.range n).filter (fun q => c < q ∧ (q, c) ∈ F) := by
    rw [Finset.mem_filter, Finset.mem_range]
    exact ⟨hq, hcq, hmem⟩
  unfold fillParent
  split
  · exact Finset.min'_le _ _ hqf
  · next h => exact absurd ⟨q, hqf⟩ h

theorem fillParent_mem (n : Nat) (F : Finset (Nat × Nat)) {c : Nat}
    (h : fillParent n F c < n) :
    c < fillParent n F c ∧ (fillParent n F c, c) ∈ F := by
  by_cases hne : ((Finset.range n).filter (fun q => c < q ∧ (q, c) ∈ F)).Nonempty
  · have hm := Finset.min'_mem _ hne
    rw [Finset.mem_filter] at hm
    have he : fillParent n F c =
        ((Finset.range n).filter (fun q => c < q ∧ (q, c) ∈ F)).min' hne := by
      unfold fillParent
      rw [dif_pos hne]
    rw [he]
    exact hm.2
  · exfalso
    have : fillParent n F c = n := by
      unfold fillParent
      rw [dif_neg hne]
    omega

/-! ### Tagged-set bookkeeping -/

theorem mem_Tset {r : Nat} {s : ETState} {v : Nat} :
    v ∈ Tset r s ↔ v < r ∧ s.tags v = r := by
  rw [Tset, Finset.mem_filter, Finset.mem_range]

theorem Tset_body (r c : Nat) (s : ETState) (hcr : c < r) :
    Tset r (etBody r c s) = insert c (Tset r s) := by
  ext v
  rw [mem_Tset, Finset.mem_insert, mem_Tset]
  show v < r ∧ (if v = c then r else s.tags v) = r ↔ _
  by_cases hv : v = c
  · subst hv
    simp [hcr]
  · simp [hv]

theorem MidInv.weaken {n : Nat} {F : Finset (Nat × Nat)} {r : Nat}
    {s : ETState} (h : MidInv n F r none s) (c : Nat) :
    MidInv n F r (some c) s := by
  refine ⟨h.tagr, h.tset_sub, h.parent_tag, h.parent_untag, ?_⟩
  intro v hv
  rcases h.chain v hv with h1 | h1 | h1
  · exact Or.inl h1
  · exact Or.inr (Or.inl h1)
  · exact Option.noConfusion h1

/-! ### The inner ancestor walk -/

theorem etWalk_spec (n : Nat) (F : Finset (Nat × Nat))
    (helim : ∀ r' p' c' : Nat,
      (r', c') ∈ F → (p', c') ∈ F → c' < p' → c' < r' → (r', p') ∈ F)
    (r : Nat) (hr : r < n) :
    ∀ fuel c s, MidInv n F r (some c) s →
      (c = r ∨ ((r, c) ∈ F ∧ c < r)) →
      r + 1 - c ≤ fuel →
      ∃ s', etWalk r fuel c s = some s' ∧
        MidInv n F r none s' ∧
        Tset r s ⊆ Tset r s' ∧
        (c < r → c ∈ Tset r s') ∧
        s'.nnz + (Tset r s).card = s.nnz + (Tset r s').card ∧
        (∀ v, r ≤ v → s'.tags v = s.tags v ∧ s'.parent v = s.parent v) ∧
        (∀ v, s'.tags v = s.tags v ∨ s'.tags v = r) := by
  intro fuel
  induction fuel with
  | zero =>
      intro c s _ hc hfuel
      exfalso
      rcases hc with h | h
      · omega
      · rcases h with ⟨-, h⟩; omega
  | succ fuel ih =>
      intro c s hInv hc hfuel
      by_cases htag : s.tags c = r
      · have heq : etWalk r (fuel + 1) c s = some s := by
          simp only [etWalk]
          rw [if_pos htag]
        refine ⟨s, heq, ?_, fun v hv => hv, fun hcr => mem_Tset.2 ⟨hcr, htag⟩,
          rfl, fun v _ => ⟨rfl, rfl⟩, fun v => Or.inl rfl⟩
        refine ⟨hInv.tagr, hInv.tset_sub, hInv.parent_tag, hInv.parent_untag, ?_⟩
        intro v hv
        rcases hInv.chain v hv with h1 | h1 | h1
        · exact Or.inl h1
        · exact Or.inr (Or.inl h1)
        · have hcfp : c = fillParent n F v := Option.some.inj h1
          rcases hc with hcr | ⟨-, hcr⟩
          · left; rw [← hcfp, hcr]
          · right; left; rw [← hcfp]; exact mem_Tset.2 ⟨hcr, htag⟩
      · have hcr : c < r := by
          rcases hc with h | h
          · exfalso; apply htag; rw [h]; exact hInv.tagr
          · exact h.2
        have hcF : (r, c) ∈ F := by
          rcases hc with h | h
          · exfalso; apply htag; rw [h]; exact hInv.tagr
          · exact h.1
        have hcn : c < n := lt_trans hcr hr
        have hcT : c ∉ Tset r s := fun hm => htag (mem_Tset.1 hm).2
        have hfple : fillParent n F c ≤ r := fillParent_le n F hr hcr hcF
        have hfpgt : c < fillParent n F c := fillParent_gt n F hcn
        have hnext : etNext r c s = (fillParent n F c : Int) := by
          have hpu := hInv.parent_untag c hcr hcT
          unfold etNext
          rcases Nat.lt_or_ge (fillParent n F c) r with hlt | hge
          · rw [hpu.1 hlt, if_neg (by omega)]
          · have hfpr : fillParent n F c = r := le_antisymm hfple hge
            rw [hpu.2 hge, if_pos rfl, hfpr]
        have hnextNat : (etNext r c s).toNat = fillParent n F c := by
          rw [hnext]; omega
        have hT1 : Tset r (etBody r c s) = insert c (Tset r s) :=
          Tset_body r c s hcr
        have hstep : etWalk r (fuel + 1) c s =
            etWalk r fuel (fillParent n F c) (etBody r c s) := by
          simp only [etWalk]
          rw [if_neg htag, hnextNat]
        have hInv1 : MidInv n F r (some (fillParent n F c)) (etBody r c s) := by
          constructor
          · show (if r = c then r else s.tags r) = r
            rw [if_neg (by omega)]; exact hInv.tagr
          · intro v hv
            rw [hT1] at hv
            rcases Finset.mem_insert.1 hv with h | h
            · rw [h]; exact hcF
            · exact hInv.tset_sub v h
          · intro v hv
            rw [hT1] at hv
            rcases Finset.mem_insert.1 hv with h | h
            · show (if v = c then etNext r c s else s.parent v) = _
              rw [if_pos h, hnext, h]
            · have hvc : v ≠ c := fun he => hcT (he ▸ h)
              show (if v = c then etNext r c s else s.parent v) = _
              rw [if_neg hvc]; exact hInv.parent_tag v h
          · intro v hv hvT
            have hvc : v ≠ c := by
              intro he
              apply hvT
              rw [hT1, he]
              exact Finset.mem_insert_self c _
            have hvT0 : v ∉ Tset r s := fun hm =>
              hvT (by rw [hT1]; exact Finset.mem_insert_of_mem hm)
            have hpu := hInv.parent_untag v hv hvT0
            constructor
            · intro hlt
              show (if v = c then etNext r c s else s.parent v) = _
              rw [if_neg hvc]; exact hpu.1 hlt
            · intro hge
              show (if v = c then etNext r c s else s.parent v) = _
              rw [if_neg hvc]; exact hpu.2 hge
          · intro v hv
            rw [hT1] at hv
            rcases Finset.mem_insert.1 hv with h | h
            · rw [h]; exact Or.inr (Or.inr rfl)
            · rcases hInv.chain v h with h1 | h1 | h1
              · exact Or.inl h1
              · exact Or.inr (Or.inl (by rw [hT1]; exact Finset.mem_insert_of_mem h1))
              · have hcv : c = fillParent n F v := Option.some.inj h1
                refine Or.inr (Or.inl ?_)
                rw [hT1, ← hcv]
                exact Finset.mem_insert_self c _
        have hcond : fillParent n F c = r ∨
            ((r, fillParent n F c) ∈ F ∧ fillParent n F c < r) := by
          rcases eq_or_lt_of_le hfple with h | h
          · exact Or.inl h
          · right
            refine ⟨?_, h⟩
            have hfpn : fillParent n F c < n := lt_trans h hr
            have hm := fillParent_mem n F hfpn
            exact helim r (fillParent n F c) c hcF hm.2 hfpgt hcr
        have hfuel' : r + 1 - fillParent n F c ≤ fuel := by omega
        obtain ⟨s', heq', hInv', hsub', hmem', hcard', hframe', htags'⟩ :=
          ih (fillParent n F c) (etBody r c s) hInv1 hcond hfuel'
        refine ⟨s', by rw [hstep]; exact heq', hInv', ?_, ?_, ?_, ?_, ?_⟩
        · intro v hv
          exact hsub' (by rw [hT1]; exact Finset.mem_insert_of_mem hv)
        · intro _
          exact hsub' (by rw [hT1]; exact Finset.mem_insert_self c _)
        · have hcardT1 : (Tset r (etBody r c s)).card = (Tset r s).card + 1 := by
            rw [hT1, Finset.card_insert_of_not_mem hcT]
          have hnnz1 : (etBody r c s).nnz = s.nnz + 1 := rfl
          omega
        · intro v hv
          have h1 := hframe' v hv
          have h2 : (etBody r c s).tags v = s.tags v := by
            show (if v = c then r else s.tags v) = s.tags v
            rw [if_neg (by omega)]
          have h3 : (etBody r c s).parent v = s.parent v := by
            show (if v = c then etNext r c s else s.parent v) = s.parent v
            rw [if_neg (by omega)]
          exact ⟨by rw [h1.1, h2], by rw [h1.2, h3]⟩
        · intro v
          rcases htags' v with h1 | h1
          · by_cases hvc : v = c
            · right
              rw [h1, hvc]
              show (if c = c then r else s.tags c) = r
              rw [if_pos rfl]
            · left
              rw [h1]
              show (if v = c then r else s.tags v) = s.tags v
              rw [if_neg hvc]
          · exact Or.inr h1

/-! ### Folding the walks over one row's stored columns -/

theorem etSeeds_spec (n : Nat) (F : Finset (Nat × Nat))
    (helim : ∀ r' p' c' : Nat,
      (r', c') ∈ F → (p', c') ∈ F → c' < p' → c' < r' → (r', p') ∈ F)
    (r : Nat) (hr : r < n) :
    ∀ cols (s : ETState), MidInv n F r none s →
      (∀ c ∈ cols, c < r → (r, c) ∈ F) →
      ∃ s', List.foldlM (etCol n r) s cols = some s' ∧
        MidInv n F r none s' ∧
        Tset r s ⊆ Tset r s' ∧
        (∀ c ∈ cols, c < r → c ∈ Tset r s') ∧
        s'.nnz + (Tset r s).card = s.nnz + (Tset r s').card ∧
        (∀ v, r ≤ v → s'.tags v = s.tags v ∧ s'.parent v = s.parent v) ∧
        (∀ v, s'.tags v = s.tags v ∨ s'.tags v = r) := by
  intro cols
  induction cols with
  | nil =>
      intro s hInv _
      exact ⟨s, rfl, hInv, fun v hv => hv,
        fun c hc => absurd hc (List.not_mem_nil c),
        rfl, fun v _ => ⟨rfl, rfl⟩, fun v => Or.inl rfl⟩
  | cons c cols ihc =>
      intro s hInv hcols
      by_cases hc : c < r
      · obtain ⟨s₁, heq₁, hInv₁, hsub₁, hmem₁, hcard₁, hframe₁, htags₁⟩ :=
          etWalk_spec n F helim r hr (n + 1) c s (hInv.weaken c)
            (Or.inr ⟨hcols c (List.mem_cons_self c cols) hc, hc⟩) (by omega)
        obtain ⟨s₂, heq₂, hInv₂, hsub₂, hmem₂, hcard₂, hframe₂, htags₂⟩ :=
          ihc s₁ hInv₁ (fun c' hc' => hcols c' (List.mem_cons_of_mem c hc'))
        refine ⟨s₂, ?_, hInv₂, hsub₁.trans hsub₂, ?_, by omega, ?_, ?_⟩
        · rw [List.foldlM_cons,
            show etCol n r s c = some s₁ from by rw [etCol, if_pos hc]; exact heq₁]
          simpa using heq₂
        · intro c' hc' hlt
          rcases List.mem_cons.1 hc' with he | hm
          · rw [he]; exact hsub₂ (hmem₁ hc)
          · exact hmem₂ c' hm hlt
        · intro v hv
          have h1 := hframe₂ v hv
          have h2 := hframe₁ v hv
          exact ⟨by rw [h1.1, h2.1], by rw [h1.2, h2.2]⟩
        · intro v
          rcases htags₂ v with h1 | h1
          · rcases htags₁ v with h2 | h2
            · left; rw [h1, h2]
            · right; rw [h1, h2]
          · exact Or.inr h1
      · obtain ⟨s₂, heq₂, hInv₂, hsub₂, hmem₂, hcard₂, hframe₂, htags₂⟩ :=
          ihc s hInv (fun c' hc' => hcols c' (List.mem_cons_of_mem c hc'))
        refine ⟨s₂, ?_, hInv₂, hsub₂, ?_, hcard₂, hframe₂, htags₂⟩
        · rw [List.foldlM_cons,
            show etCol n r s c = some s from by rw [etCol, if_neg hc]]
          simpa using heq₂
        · intro c' hc' hlt
          rcases List.mem_cons.1 hc' with he | hm
          · exfalso; rw [he] at hlt; exact hc hlt
          · exact hmem₂ c' hm hlt

/-! ### Every fill column of the row gets tagged -/

theorem etChain_up (n : Nat) (F : Finset (Nat × Nat))
    (helim : ∀ r' p' c' : Nat,
      (r', c') ∈ F → (p', c') ∈ F → c' < p' → c' < r' → (r', p') ∈ F)
    (r : Nat) (hr : r < n) (s : ETState) (hInv : MidInv n F r none s) :
    ∀ d k c', k ∈ Tset r s → (c', k) ∈ F → k < c' → c' < r → c' - k ≤ d →
      c' ∈ Tset r s := by
  intro d
  induction d with
  | zero =>
      intro k c' _ _ hkc _ hd
      exfalso; omega
  | succ d ihd =>
      intro k c' hk hc'k hkc hc'r hd
      have hkr : k < r := (mem_Tset.1 hk).1
      have hkn : k < n := lt_trans hkr hr
      have hc'n : c' < n := lt_trans hc'r hr
      have hple : fillParent n F k ≤ c' := fillParent_le n F hc'n hkc hc'k
      have hpgt : k < fillParent n F k := fillParent_gt n F hkn
      rcases hInv.chain k hk with h1 | h1 | h1
      · exfalso; omega
      · rcases eq_or_lt_of_le hple with he | hlt
        · rw [← he]; exact h1
        · have hpn : fillParent n F k < n := lt_trans (lt_trans hlt hc'r) hr
          have hmm := fillParent_mem n F hpn
          have hstep : (c', fillParent n F k) ∈ F :=
            helim c' (fillParent n F k) k hc'k hmm.2 hpgt hkc
          exact ihd (fillParent n F k) c' h1 hstep hlt hc'r (by omega)
      · exact Option.noConfusion h1

theorem tset_complete (n : Nat) (Q : Finset (Nat × Nat))
    (hQ : Q ⊆ Finset.range n ×ˢ Finset.range n)
    (r : Nat) (hr : r < n) (s : ETState)
    (hInv : MidInv n (fillClosure n Q) r none s)
    (hseeds : ∀ c, c < r → (r, c) ∈ Q → c ∈ Tset r s) :
    ∀ c, c < r → (r, c) ∈ fillClosure n Q → c ∈ Tset r s := by
  have helim : ∀ r' p' c' : Nat, (r', c') ∈ fillClosure n Q →
      (p', c') ∈ fillClosure n Q → c' < p' → c' < r' →
      (r', p') ∈ fillClosure n Q :=
    fun r' p' c' h1 h2 h3 h4 => fill_elim n Q hQ h1 h2 h3 h4
  intro c
  induction c using Nat.strong_induction_on with
  | _ c ih =>
      intro hcr hcF
      rcases fill_origin n Q n le_rfl hcF with hbase | ⟨k, hka, hkb, hrk, hck⟩
      · exact hseeds c hcr hbase
      · have hkT : k ∈ Tset r s := ih k hkb (by omega) hrk
        exact etChain_up n (fillClosure n Q) helim r hr s hInv
          (c - k) k c hkT hck hkb hcr le_rfl

/-! ### One outer-loop iteration preserves the run invariant -/

theorem etProcessRow_spec (m : CSRMatrix) (r : Nat) (hr : r < m.n)
    (s : ETState) (hRun : RunInv m r s) :
    ∃ s', etProcessRow m r s = some s' ∧ RunInv m (r + 1) s' := by
  have hQr : patternOfCSR m ⊆ Finset.range m.n ×ˢ Finset.range m.n :=
    Finset.filter_subset _ _
  have helim : ∀ r' p' c' : Nat,
      (r', c') ∈ fillClosure m.n (patternOfCSR m) →
      (p', c') ∈ fillClosure m.n (patternOfCSR m) → c' < p' → c' < r' →
      (r', p') ∈ fillClosure m.n (patternOfCSR m) :=
    fun r' p' c' h1 h2 h3 h4 => fill_elim m.n (patternOfCSR m) hQr h1 h2 h3 h4
  have hT0 : Tset r (etInitRow r s) = ∅ := by
    rw [Finset.eq_empty_iff_forall_not_mem]
    intro v hv
    rw [mem_Tset] at hv
    rcases hv with ⟨hvr, hvt⟩
    have hvt' : (if v = r then r else s.tags v) = r := hvt
    rw [if_neg (by omega)] at hvt'
    rcases hRun.tbound v with h0 | hlt <;> omega
  have hInv0 : MidInv m.n (fillClosure m.n (patternOfCSR m)) r none
      (etInitRow r s) := by
    constructor
    · show (if r = r then r else s.tags r) = r
      rw [if_pos rfl]
    · intro v hv; rw [hT0] at hv; exact absurd hv (Finset.not_mem_empty v)
    · intro v hv; rw [hT0] at hv; exact absurd hv (Finset.not_mem_empty v)
    · intro v hv _
      have hp := hRun.pinv v hv
      constructor
      · intro hlt
        show (if v = r then -1 else s.parent v) = _
        rw [if_neg (by omega)]
        exact hp.1 hlt
      · intro hge
        show (if v = r then -1 else s.parent v) = _
        rw [if_neg (by omega)]
        exact hp.2 hge
    · intro v hv; rw [hT0] at hv; exact absurd hv (Finset.not_mem_empty v)
  have hseedsF : ∀ c ∈ rowCols m r, c < r →
      (r, c) ∈ fillClosure m.n (patternOfCSR m) := by
    intro c hcmem hclt
    apply subset_fillStage m.n (patternOfCSR m) m.n
    rw [patternOfCSR, Finset.mem_filter, Finset.mem_product,
      Finset.mem_range, Finset.mem_range]
    exact ⟨⟨hr, by omega⟩, hcmem⟩
  obtain ⟨s₁, heq, hInv₁, hsub₁, hseeds₁, hcard₁, hframe₁, htags₁⟩ :=
    etSeeds_spec m.n (fillClosure m.n (patternOfCSR m)) helim r hr
      (rowCols m r) (etInitRow r s) hInv0 hseedsF
  have hTD : Tset r s₁ = Dset r (fillClosure m.n (patternOfCSR m)) := by
    apply Finset.Subset.antisymm
    · intro v hv
      rw [Dset, Finset.mem_filter, Finset.mem_range]
      exact ⟨(mem_Tset.1 hv).1, hInv₁.tset_sub v hv⟩
    · intro v hv
      rw [Dset, Finset.mem_filter, Finset.mem_range] at hv
      refine tset_complete m.n (patternOfCSR m) hQr r hr s₁ hInv₁ ?_ v hv.1 hv.2
      intro c hc hcQ
      refine hseeds₁ c ?_ hc
      rw [patternOfCSR, Finset.mem_filter] at hcQ
      exact hcQ.2
  refine ⟨s₁, heq, ?_⟩
  constructor
  · intro c hc
    rcases Nat.lt_or_ge c r with hcr | hge
    · by_cases hcT : c ∈ Tset r s₁
      · have hcD : (r, c) ∈ fillClosure m.n (patternOfCSR m) :=
          hInv₁.tset_sub c hcT
        have hfple : fillParent m.n (fillClosure m.n (patternOfCSR m)) c ≤ r :=
          fillParent_le m.n _ hr hcr hcD
        have hpt := hInv₁.parent_tag c hcT
        constructor
        · intro _; exact hpt
        · intro hge2; exfalso; omega
      · have hcD : (r, c) ∉ fillClosure m.n (patternOfCSR m) := by
          intro hF2
          apply hcT
          rw [hTD, Dset, Finset.mem_filter, Finset.mem_range]
          exact ⟨hcr, hF2⟩
        have hfpne : fillParent m.n (fillClosure m.n (patternOfCSR m)) c ≠ r := by
          intro he
          apply hcD
          have hm := fillParent_mem m.n (fillClosure m.n (patternOfCSR m))
            (show fillParent m.n (fillClosure m.n (patternOfCSR m)) c < m.n by
              rw [he]; exact hr)
          rw [he] at hm
          exact hm.2
        have hpu := hInv₁.parent_untag c hcr hcT
        constructor
        · intro hlt
          exact hpu.1 (by omega)
        · intro hge2
          exact hpu.2 (by omega)
    · have hceq : c = r := by omega
      subst hceq
      have hpr : s₁.parent c = (etInitRow c s).parent c := (hframe₁ c le_rfl).2
      have hpr2 : (etInitRow c s).parent c = -1 := by
        show (if c = c then -1 else s.parent c) = -1
        rw [if_pos rfl]
      have hfpgt : c < fillParent m.n (fillClosure m.n (patternOfCSR m)) c :=
        fillParent_gt m.n _ hr
      constructor
      · intro hlt; exfalso; omega
      · intro _; rw [hpr, hpr2]
  · intro v
    rcases htags₁ v with h1 | h1
    · by_cases hvr : v = r
      · right
        rw [h1, hvr]
        show (if r = r then r else s.tags r) < r + 1
        rw [if_pos rfl]; omega
      · have h2 : (etInitRow r s).tags v = s.tags v := by
          show (if v = r then r else s.tags v) = s.tags v
          rw [if_neg hvr]
        rcases hRun.tbound v with h0 | hlt
        · left; rw [h1, h2, h0]
        · right; rw [h1, h2]; omega
    · right; rw [h1]; omega
  · have hcount : s₁.nnz = s.nnz +
        (Dset r (fillClosure m.n (patternOfCSR m))).card := by
      rw [hT0, Finset.card_empty, hTD] at hcard₁
      have hnnz0 : (etInitRow r s).nnz = s.nnz := rfl
      omega
    have hdisj : Disjoint
        ((fillClosure m.n (patternOfCSR m)).filter
          (fun p => p.2 < p.1 ∧ p.1 < r))
        ((Dset r (fillClosure m.n (patternOfCSR m))).image
          (fun c => (r, c))) := by
      rw [Finset.disjoint_left]
      intro p hp1 hp2
      rw [Finset.mem_filter] at hp1
      rw [Finset.mem_image] at hp2
      rcases hp2 with ⟨c, -, hceq⟩
      rcases hp1 with ⟨-, -, hlt⟩
      rw [← hceq] at hlt
      simp at hlt
    have hinj : Function.Injective (fun c : Nat => (r, c)) := by
      intro a b hab
      simpa using hab
    have hsplit : (fillClosure m.n (patternOfCSR m)).filter
        (fun p => p.2 < p.1 ∧ p.1 < r + 1) =
        (fillClosure m.n (patternOfCSR m)).filter
          (fun p => p.2 < p.1 ∧ p.1 < r) ∪
        (Dset r (fillClosure m.n (patternOfCSR m))).image
          (fun c => (r, c)) := by
      ext p
      rw [Finset.mem_union, Finset.mem_filter, Finset.mem_filter,
        Finset.mem_image]
      constructor
      · rintro ⟨hpF, hpl, hpr1⟩
        rcases Nat.lt_or_ge p.1 r with h | h
        · exact Or.inl ⟨hpF, hpl, h⟩
        · right
          have hp1 : p.1 = r := by omega
          refine ⟨p.2, ?_, ?_⟩
          · rw [Dset, Finset.mem_filter, Finset.mem_range]
            have hps : (p.1, p.2) ∈ fillClosure m.n (patternOfCSR m) := by
              rw [Prod.mk.eta]; exact hpF
            rw [hp1] at hps
            exact ⟨by omega, hps⟩
          · show (r, p.2) = p
            rw [← hp1, Prod.mk.eta]
      · rintro (⟨hpF, hpl, h⟩ | ⟨c, hcD, hceq⟩)
        · exact ⟨hpF, hpl, by omega⟩
        · rw [Dset, Finset.mem_filter, Finset.mem_range] at hcD
          rw [← hceq]
          exact ⟨hcD.2, by simpa using hcD.1, by simp⟩
    rw [hcount, hRun.nnzv, hsplit,
      Finset.card_union_of_disjoint hdisj,
      Finset.card_image_of_injective _ hinj]

/-! ### The outer row loop -/

theorem etRun_succ (m : CSRMatrix) (k : Nat) :
    etRun m (k + 1) = (etRun m k).bind (fun s => etProcessRow m k s) := by
  unfold etRun
  rw [List.range_succ, List.foldlM_append]
  simp [List.foldlM]

theorem etRun_inv (m : CSRMatrix) : ∀ k, k ≤ m.n →
    ∃ s, etRun m k = some s ∧ RunInv m k s := by
  intro k
  induction k with
  | zero =>
      intro _
      refine ⟨initET, rfl, ?_, ?_, ?_⟩
      · intro c hc; exact absurd hc (Nat.not_lt_zero c)
      · intro v; exact Or.inl rfl
      · show (0 : Nat) = _
        rw [eq_comm, Finset.card_eq_zero, Finset.filter_eq_empty_iff]
        intro p _
        rintro ⟨-, h2⟩
        exact absurd h2 (Nat.not_lt_zero _)
  | succ k ih =>
      intro hk
      obtain ⟨s, hs, hR⟩ := ih (by omega)
      obtain ⟨s', hs', hR'⟩ := etProcessRow_spec m k (by omega) s hR
      refine ⟨s', ?_, hR'⟩
      rw [etRun_succ, hs]
      simpa using hs'

/-- Master theorem: the elimination-tree overload always terminates and its
count equals twice the number of strictly-lower entries of the symbolic
elimination fill closure of the matrix pattern, plus the diagonal. -/
theorem count_nnz_fillin_spec (m : CSRMatrix) :
    count_nnz_fillin m = some (2 *
      ((((fillClosure m.n (patternOfCSR m)).filter
        (fun p => p.2 < p.1)).card : Int)) + (m.n : Int)) := by
  obtain ⟨s, hs, hR⟩ := etRun_inv m m.n le_rfl
  have hQr : patternOfCSR m ⊆ Finset.range m.n ×ˢ Finset.range m.n :=
    Finset.filter_subset _ _
  have hFr := fillStage_subset_range m.n (patternOfCSR m) hQr m.n
  have hfil : (fillClosure m.n (patternOfCSR m)).filter
      (fun p => p.2 < p.1 ∧ p.1 < m.n) =
      (fillClosure m.n (patternOfCSR m)).filter (fun p => p.2 < p.1) := by
    ext p
    rw [Finset.mem_filter, Finset.mem_filter]
    constructor
    · rintro ⟨h1, h2, -⟩; exact ⟨h1, h2⟩
    · rintro ⟨h1, h2⟩
      refine ⟨h1, h2, ?_⟩
      have hp := hFr h1
      rw [Finset.mem_product, Finset.mem_range, Finset.mem_range] at hp
      exact hp.1
  unfold count_nnz_fillin
  rw [hs]
  simp only [Option.map_some']
  congr 1
  rw [hR.nnzv, hfil]

/-- C1: for every symmetric matrix and valid permutation, the
elimination-tree counter applied to the matrix already relabeled by the
permutation returns the same integer as the oracle overload applied to the
matrix with the permutation (the external Cholesky collaborator being
modelled symbolically, it always succeeds). -/
theorem c1_cross_path_equivalence (m : CSRMatrix) (E : List (Nat × Nat × Int))
    (P : List Nat) (canOpen : Bool)
    (hperm : is_unique_permutation m.n P = true)
    (hlow : ∀ e ∈ E, e.2.1 ≤ e.1)
    (hpat : patternOfCSR m = patternOf (permute_symm_to_fullsymm E P)) :
    count_nnz_fillin m =
      some ((count_nnz_fillin_oracle m.n E P canOpen
        (modelCholesky m.n)).fillCount) := by
  rw [count_nnz_fillin_spec m]
  have hchol : modelCholesky m.n (permute_symm_to_fullsymm E P) =
      some (m.n + ((fillClosure m.n
        (patternOf (permute_symm_to_fullsymm E P))).filter
          (fun p => p.2 < p.1)).card) := rfl
  simp only [count_nnz_fillin_oracle, hchol]
  congr 1
  rw [hpat]
  push_cast
  ring

/-- Witness for C1 at a concrete symmetric 2-by-2 matrix and the swap
permutation. -/
theorem c1_cross_path_equivalence_witness :
    is_unique_permutation fullCSR2.n [1, 0] = true ∧
    (∀ e ∈ lowerE2, e.2.1 ≤ e.1) ∧
    patternOfCSR fullCSR2 = patternOf (permute_symm_to_fullsymm lowerE2 [1, 0]) ∧
    count_nnz_fillin fullCSR2 =
      some ((count_nnz_fillin_oracle fullCSR2.n lowerE2 [1, 0] true
        (modelCholesky fullCSR2.n)).fillCount) :=
  ⟨by decide, by decide, by decide,
    c1_cross_path_equivalence fullCSR2 lowerE2 [1, 0] true
      (by decide) (by decide) (by decide)⟩

/-- C5: for every well-formed full-CSR input (monotone row pointers, column
indices in range) the elimination-tree counter terminates with a
nonnegative value; it cannot fail at runtime. -/
theorem c5_terminates_nonneg (m : CSRMatrix)
    (hmono : ∀ i, i < m.n → m.row_ptr.getD i 0 ≤ m.row_ptr.getD (i + 1) 0)
    (hcols : ∀ r, r < m.n → ∀ c ∈ rowCols m r, c < m.n) :
    ∃ k, count_nnz_fillin m = some k ∧ 0 ≤ k := by
  refine ⟨_, count_nnz_fillin_spec m, ?_⟩
  positivity

/-- Witness for C5 at the concrete path-graph matrix. -/
theorem c5_terminates_nonneg_witness :
    (∀ i, i < pathCSR.n →
      pathCSR.row_ptr.getD i 0 ≤ pathCSR.row_ptr.getD (i + 1) 0) ∧
    (∀ r, r < pathCSR.n → ∀ c ∈ rowCols pathCSR r, c < pathCSR.n) ∧
    ∃ k, count_nnz_fillin pathCSR = some k ∧ 0 ≤ k :=
  ⟨by decide, by decide,
    c5_terminates_nonneg pathCSR (by decide) (by decide)⟩

/-- C10: after any prefix of the row loop, the parent array encodes a
forest whose edges point from lower to higher indices: every initialized
node has parent `-1` or a strictly greater index. -/
theorem c10_parent_upward (m : CSRMatrix) (k : Nat) (hk : k ≤ m.n)
    (s : ETState) (h : etRun m k = some s) :
    ∀ v, v < k → s.parent v = -1 ∨ (v : Int) < s.parent v := by
  obtain ⟨s', hs', hR⟩ := etRun_inv m k hk
  rw [hs'] at h
  have hse : s' = s := Option.some.inj h
  subst hse
  intro v hv
  rcases Nat.lt_or_ge (fillParent m.n (fillClosure m.n (patternOfCSR m)) v) k
    with hlt | hge
  · right
    rw [(hR.pinv v hv).1 hlt]
    have hgt : v < fillParent m.n (fillClosure m.n (patternOfCSR m)) v :=
      fillParent_gt m.n _ (by omega)
    exact_mod_cast hgt
  · left
    exact (hR.pinv v hv).2 hge

/-- Witness for C10 after two rows of the concrete path-graph matrix,
checked at the two initialized nodes. -/
theorem c10_parent_upward_witness :
    (((etRun pathCSR 2).getD initET).parent 0 = -1 ∨
      ((0 : Nat) : Int) < ((etRun pathCSR 2).getD initET).parent 0) ∧
    (((etRun pathCSR 2).getD initET).parent 1 = -1 ∨
      ((1 : Nat) : Int) < ((etRun pathCSR 2).getD initET).parent 1) :=
  ⟨c10_parent_upward pathCSR 2 (by decide) ((etRun pathCSR 2).getD initET)
      rfl 0 (by decide),
    c10_parent_upward pathCSR 2 (by decide) ((etRun pathCSR 2).getD initET)
      rfl 1 (by decide)⟩

/-- C6: for a fully dense lower-triangular pattern of order `n ≥ 1`, the
elimination-tree counter returns exactly `n * n`. -/
theorem c6_dense_pattern (m : CSRMatrix) (h1 : 1 ≤ m.n)
    (hdense : ∀ r, r < m.n → rowCols m r = List.range (r + 1)) :
    count_nnz_fillin m = some ((m.n : Int) * (m.n : Int)) := by
  rw [count_nnz_fillin_spec m]
  congr 1
  have hQr : patternOfCSR m ⊆ Finset.range m.n ×ˢ Finset.range m.n :=
    Finset.filter_subset _ _
  have hFr := fillStage_subset_range m.n (patternOfCSR m) hQr m.n
  have hFL : (fillClosure m.n (patternOfCSR m)).filter (fun p => p.2 < p.1) =
      (Finset.range m.n ×ˢ Finset.range m.n).filter (fun p => p.2 < p.1) := by
    apply Finset.Subset.antisymm
    · exact Finset.filter_subset_filter _ hFr
    · intro p hp
      rw [Finset.mem_filter] at hp ⊢
      refine ⟨?_, hp.2⟩
      apply subset_fillStage
      rw [patternOfCSR, Finset.mem_filter]
      refine ⟨hp.1, ?_⟩
      have hp1 : p.1 < m.n := by
        have hm := hp.1
        rw [Finset.mem_product, Finset.mem_range, Finset.mem_range] at hm
        exact hm.1
      rw [hdense p.1 hp1, List.mem_range]
      have := hp.2
      omega
  rw [hFL]
  have hbi : (Finset.range m.n ×ˢ Finset.range m.n).filter
      (fun p => p.2 < p.1) =
      (Finset.range m.n).biUnion
        (fun a => (Finset.range a).image (fun b => (a, b))) := by
    ext p
    rw [Finset.mem_filter, Finset.mem_product, Finset.mem_biUnion]
    constructor
    · rintro ⟨⟨ha, hb⟩, h3⟩
      rw [Finset.mem_range] at ha hb
      refine ⟨p.1, Finset.mem_range.2 ha, ?_⟩
      rw [Finset.mem_image]
      exact ⟨p.2, Finset.mem_range.2 h3, Prod.mk.eta⟩
    · rintro ⟨a, ha, hp⟩
      rw [Finset.mem_image] at hp
      rcases hp with ⟨b, hb, he⟩
      rw [Finset.mem_range] at ha hb
      rw [← he]
      exact ⟨⟨Finset.mem_range.2 ha, Finset.mem_range.2 (by omega)⟩, hb⟩
  have hcard : ((Finset.range m.n).biUnion
      (fun a => (Finset.range a).image (fun b => (a, b)))).card * 2 =
      m.n * (m.n - 1) := by
    rw [Finset.card_biUnion]
    · have hc : ∀ a ∈ Finset.range m.n,
          ((Finset.range a).image (fun b => (a, b))).card = a := by
        intro a _
        rw [Finset.card_image_of_injective _
          (fun x y hxy => by simpa using hxy), Finset.card_range]
      rw [Finset.sum_congr rfl hc]
      exact Finset.sum_range_id_mul_two m.n
    · intro x _ y _ hxy
      rw [Finset.disjoint_left]
      intro p hpx hpy
      rw [Finset.mem_image] at hpx hpy
      rcases hpx with ⟨b1, -, he1⟩
      rcases hpy with ⟨b2, -, he2⟩
      apply hxy
      rw [← he1] at he2
      exact (congrArg Prod.fst he2).symm
  rw [hbi]
  have hcast : (((Finset.range m.n).biUnion
      (fun a => (Finset.range a).image (fun b => (a, b)))).card : Int) * 2 =
      (m.n : Int) * ((m.n : Int) - 1) := by
    have hc2 : (((Finset.range m.n).biUnion
        (fun a => (Finset.range a).image (fun b => (a, b)))).card : Int) * 2 =
        (m.n : Int) * ((m.n - 1 : Nat) : Int) := by
      exact_mod_cast congrArg (fun t : Nat => (t : Int)) hcard
    rw [Nat.cast_sub h1] at hc2
    simpa using hc2
  linear_combination hcast

/-- Witness for C6 at the concrete dense order-3 pattern. -/
theorem c6_dense_pattern_witness :
    1 ≤ denseCSR3.n ∧
    (∀ r, r < denseCSR3.n → rowCols denseCSR3 r = List.range (r + 1)) ∧
    count_nnz_fillin denseCSR3 =
      some ((denseCSR3.n : Int) * (denseCSR3.n : Int)) :=
  ⟨by decide, by decide, c6_dense_pattern denseCSR3 (by decide) (by decide)⟩

/-! ### Symmetric pattern counting for C7 -/

theorem mem_patternOf {entries : List (Nat × Nat × Int)} {p : Nat × Nat} :
    p ∈ patternOf entries ↔ ∃ e ∈ entries, (e.1, e.2.1) = p := by
  rw [patternOf, List.mem_toFinset, List.mem_map]

theorem patternOf_permute_symmetric (E : List (Nat × Nat × Int))
    (P : List Nat) :
    ∀ p ∈ patternOf (permute_symm_to_fullsymm E P),
      (p.2, p.1) ∈ patternOf (permute_symm_to_fullsymm E P) := by
  intro p hp
  rw [mem_patternOf] at hp
  rcases hp with ⟨e, he, hep⟩
  subst hep
  rw [mem_patternOf]
  rw [permute_symm_to_fullsymm, List.mem_flatMap] at he
  rcases he with ⟨e0, he0, hmem⟩
  by_cases hprpc : List.getD P e0.1 0 = List.getD P e0.2.1 0
  · rw [if_pos hprpc, List.mem_singleton] at hmem
    subst hmem
    refine ⟨(List.getD P e0.1 0, List.getD P e0.2.1 0, e0.2.2), ?_, ?_⟩
    · rw [permute_symm_to_fullsymm, List.mem_flatMap]
      refine ⟨e0, he0, ?_⟩
      rw [if_pos hprpc, List.mem_singleton]
    · show (List.getD P e0.1 0, List.getD P e0.2.1 0) =
        (List.getD P e0.2.1 0, List.getD P e0.1 0)
      rw [hprpc]
  · rw [if_neg hprpc] at hmem
    rcases List.mem_cons.1 hmem with hme | hme
    · subst hme
      refine ⟨(List.getD P e0.2.1 0, List.getD P e0.1 0, e0.2.2), ?_, rfl⟩
      rw [permute_symm_to_fullsymm, List.mem_flatMap]
      refine ⟨e0, he0, ?_⟩
      rw [if_neg hprpc]
      exact List.mem_cons_of_mem _ (List.mem_singleton.2 rfl)
    · rw [List.mem_singleton] at hme
      subst hme
      refine ⟨(List.getD P e0.1 0, List.getD P e0.2.1 0, e0.2.2), ?_, rfl⟩
      rw [permute_symm_to_fullsymm, List.mem_flatMap]
      refine ⟨e0, he0, ?_⟩
      rw [if_neg hprpc]
      exact List.mem_cons_self _ _

theorem patternOf_permute_subset (E : List (Nat × Nat × Int)) (n : Nat)
    (hE : ∀ e ∈ E, e.2.1 ≤ e.1 ∧ e.1 < n) :
    patternOf (permute_symm_to_fullsymm E (List.range n)) ⊆
      Finset.range n ×ˢ Finset.range n := by
  intro p hp
  rw [mem_patternOf] at hp
  rcases hp with ⟨e, he, hep⟩
  subst hep
  rw [permute_symm_to_fullsymm, List.mem_flatMap] at he
  rcases he with ⟨e0, he0, hmem⟩
  have hre := hE e0 he0
  have hgd1 : (List.range n).getD e0.1 0 = e0.1 := by
    rw [List.getD_eq_getElem _ _ (by rw [List.length_range]; exact hre.2)]
    simp [List.getElem_range]
  have hgd2 : (List.range n).getD e0.2.1 0 = e0.2.1 := by
    rw [List.getD_eq_getElem _ _ (by rw [List.length_range]; omega)]
    simp [List.getElem_range]
  rw [Finset.mem_product, Finset.mem_range, Finset.mem_range]
  by_cases hc : (List.range n).getD e0.1 0 = (List.range n).getD e0.2.1 0
  · rw [if_pos hc, List.mem_singleton] at hmem
    subst hmem
    refine ⟨?_, ?_⟩
    · show (List.range n).getD e0.1 0 < n
      rw [hgd1]; omega
    · show (List.range n).getD e0.2.1 0 < n
      rw [hgd2]; omega
  · rw [if_neg hc] at hmem
    rcases List.mem_cons.1 hmem with hme | hme
    · subst hme
      refine ⟨?_, ?_⟩
      · show (List.range n).getD e0.1 0 < n
        rw [hgd1]; omega
      · show (List.range n).getD e0.2.1 0 < n
        rw [hgd2]; omega
    · rw [List.mem_singleton] at hme
      subst hme
      refine ⟨?_, ?_⟩
      · show (List.range n).getD e0.2.1 0 < n
        rw [hgd2]; omega
      · show (List.range n).getD e0.1 0 < n
        rw [hgd1]; omega

theorem sym_card_le (n : Nat) (S : Finset (Nat × Nat))
    (hsym : ∀ p ∈ S, (p.2, p.1) ∈ S)
    (hR : S ⊆ Finset.range n ×ˢ Finset.range n) :
    S.card ≤ 2 * (S.filter (fun p => p.2 < p.1)).card + n := by
  have hsplit1 : (S.filter (fun p => p.2 < p.1)).card +
      (S.filter (fun p => ¬ p.2 < p.1)).card = S.card :=
    Finset.filter_card_add_filter_neg_card_eq_card _
  have hsplit2 : ((S.filter (fun p => ¬ p.2 < p.1)).filter
        (fun p => p.1 < p.2)).card +
      ((S.filter (fun p => ¬ p.2 < p.1)).filter
        (fun p => ¬ p.1 < p.2)).card =
      (S.filter (fun p => ¬ p.2 < p.1)).card :=
    Finset.filter_card_add_filter_neg_card_eq_card _
  have hup : (S.filter (fun p => ¬ p.2 < p.1)).filter (fun p => p.1 < p.2) =
      S.filter (fun p => p.1 < p.2) := by
    rw [Finset.filter_filter]
    apply Finset.filter_congr
    intro p _
    constructor
    · rintro ⟨-, h⟩; exact h
    · intro h; exact ⟨by omega, h⟩
  have hcardeq : (S.filter (fun p => p.1 < p.2)).card =
      (S.filter (fun p => p.2 < p.1)).card := by
    apply Finset.card_bij (fun p _ => (p.2, p.1))
    · intro p hp
      rw [Finset.mem_filter] at hp ⊢
      exact ⟨hsym p hp.1, hp.2⟩
    · intro p1 h1 p2 h2 he
      have hf := congrArg Prod.fst he
      have hs := congrArg Prod.snd he
      exact Prod.ext hs hf
    · intro p hp
      rw [Finset.mem_filter] at hp
      refine ⟨(p.2, p.1), ?_, ?_⟩
      · rw [Finset.mem_filter]
        exact ⟨hsym p hp.1, hp.2⟩
      · exact Prod.mk.eta
  have hdiag : ((S.filter (fun p => ¬ p.2 < p.1)).filter
      (fun p => ¬ p.1 < p.2)).card ≤ n := by
    have hsub : (S.filter (fun p => ¬ p.2 < p.1)).filter
        (fun p => ¬ p.1 < p.2) ⊆ (Finset.range n).image (fun i => (i, i)) := by
      intro p hp
      rw [Finset.mem_filter, Finset.mem_filter] at hp
      have hdd : p.1 = p.2 := by
        rcases hp with ⟨⟨-, h2⟩, h3⟩
        omega
      have hpr := hR hp.1.1
      rw [Finset.mem_product, Finset.mem_range, Finset.mem_range] at hpr
      rw [Finset.mem_image]
      refine ⟨p.1, Finset.mem_range.2 hpr.1, ?_⟩
      nth_rewrite 2 [hdd]
      exact Prod.mk.eta
    calc ((S.filter (fun p => ¬ p.2 < p.1)).filter
        (fun p => ¬ p.1 < p.2)).card
        ≤ ((Finset.range n).image (fun i => (i, i))).card :=
          Finset.card_le_card hsub
      _ ≤ (Finset.range n).card := Finset.card_image_le
      _ = n := Finset.card_range n
  rw [hup] at hsplit2
  omega

/-- C7: for the identity permutation on a well-formed symmetric matrix,
both scoring paths return a fill count at least the nonzero count of the
full symmetric form of the matrix: factorization never removes structural
nonzeros. -/
theorem c7_no_dropped_nonzeros (m : CSRMatrix) (n : Nat)
    (E : List (Nat × Nat × Int)) (canOpen : Bool)
    (hsym : ∀ p ∈ patternOfCSR m, (p.2, p.1) ∈ patternOfCSR m)
    (hE : ∀ e ∈ E, e.2.1 ≤ e.1 ∧ e.1 < n) :
    (∃ k, count_nnz_fillin m = some k ∧ ((patternOfCSR m).card : Int) ≤ k) ∧
    ((patternOf (permute_symm_to_fullsymm E (List.range n))).card : Int) ≤
      (count_nnz_fillin_oracle n E (List.range n) canOpen
        (modelCholesky n)).fillCount := by
  constructor
  · refine ⟨_, count_nnz_fillin_spec m, ?_⟩
    have hQr : patternOfCSR m ⊆ Finset.range m.n ×ˢ Finset.range m.n :=
      Finset.filter_subset _ _
    have h1 := sym_card_le m.n (patternOfCSR m) hsym hQr
    have h2 : ((patternOfCSR m).filter (fun p => p.2 < p.1)).card ≤
        ((fillClosure m.n (patternOfCSR m)).filter
          (fun p => p.2 < p.1)).card :=
      Finset.card_le_card
        (Finset.filter_subset_filter _ (subset_fillStage m.n _ m.n))
    have h3 : (patternOfCSR m).card ≤
        2 * ((fillClosure m.n (patternOfCSR m)).filter
          (fun p => p.2 < p.1)).card + m.n := by omega
    exact_mod_cast h3
  · have hSsym := patternOf_permute_symmetric E (List.range n)
    have hSR := patternOf_permute_subset E n hE
    have h1 := sym_card_le n _ hSsym hSR
    have h2 : ((patternOf (permute_symm_to_fullsymm E (List.range n))).filter
        (fun p => p.2 < p.1)).card ≤
        ((fillClosure n (patternOf
          (permute_symm_to_fullsymm E (List.range n)))).filter
            (fun p => p.2 < p.1)).card :=
      Finset.card_le_card
        (Finset.filter_subset_filter _ (subset_fillStage n _ n))
    have hchol : modelCholesky n (permute_symm_to_fullsymm E (List.range n)) =
        some (n + ((fillClosure n (patternOf
          (permute_symm_to_fullsymm E (List.range n)))).filter
            (fun p => p.2 < p.1)).card) := rfl
    simp only [count_nnz_fillin_oracle, hchol]
    push_cast
    omega

/-- Witness for C7 at a concrete symmetric 2-by-2 matrix under the identity
permutation. -/
theorem c7_no_dropped_nonzeros_witness :
    (∀ p ∈ patternOfCSR fullCSR2, (p.2, p.1) ∈ patternOfCSR fullCSR2) ∧
    (∀ e ∈ lowerE2, e.2.1 ≤ e.1 ∧ e.1 < 2) ∧
    ((∃ k, count_nnz_fillin fullCSR2 = some k ∧
        ((patternOfCSR fullCSR2).card : Int) ≤ k) ∧
      ((patternOf (permute_symm_to_fullsymm lowerE2
        (List.range 2))).card : Int) ≤
        (count_nnz_fillin_oracle 2 lowerE2 (List.range 2) true
          (modelCholesky 2)).fillCount) :=
  ⟨by decide, by decide,
    c7_no_dropped_nonzeros fullCSR2 2 lowerE2 true (by decide) (by decide)⟩
